import Mathlib

/-!
# Verification of the goonew field-normalization and reconciliation logic

A shallow embedding, over `List Char` strings, of the pure text-processing
core of `scrape.py` and `fetch_april_properties.py`:

* `sanitize_cell`  — `_sanitize_cell` (tab/CR/LF folding, whitespace collapse, strip);
* `normalize_layout` — `_normalize_layout` (floor-plan token extraction,
  full-width digit folding, sort, dedup, `・`-join);
* `normalize_area` — `_normalize_area` (unit folding to `m2`, explicit-range
  search, min–max fallback, `%g` number formatting);
* `rows_to_append` / `sheet_after` — the row construction and name-based
  reconciliation of `write_to_sheet` in both scripts.

Python regular expressions are embedded as explicit scanners with the same
left-to-right, leftmost-match, advance-one-on-failure semantics.  Python
`float` values (used only to order area values and render them with `%g`)
are modelled as exact decimals `Nat × Nat` (numerator and power-of-ten
denominator); `%g` is modelled as round-half-up to six significant digits,
which agrees with CPython on every value evaluated in this file.  Unicode
character classes (`\s`, `\w`) follow CPython's definitions on the
characters that occur in this domain.
-/

set_option maxHeartbeats 1000000

namespace Goonew

/-- Strings are modelled as lists of characters. -/
abbrev Str := List Char

/-- CPython's whitespace set (the class `\s` on `str`, `str.isspace`, and the
set stripped by `str.strip()`): ASCII whitespace controls, `\x1c`–`\x1f`,
NEL, NBSP, and the Unicode space separators. -/
def pySpace (c : Char) : Bool :=
  let n := c.toNat
  (0x9 ≤ n && n ≤ 0xd) || (0x1c ≤ n && n ≤ 0x1f) || n == 0x20 ||
    n == 0x85 || n == 0xa0 || n == 0x1680 || (0x2000 ≤ n && n ≤ 0x200a) ||
    n == 0x2028 || n == 0x2029 || n == 0x202f || n == 0x205f || n == 0x3000

/-- The character class `[\t\r\n]`. -/
def tabCrLf (c : Char) : Bool :=
  c == '\t' || c == '\r' || c == '\n'

/-- `re.sub(r"[\t\r\n]+", " ", s)`: each maximal run of tab/CR/LF characters
becomes a single space.  The boolean state records whether the scanner is
inside a run whose replacement space has already been emitted. -/
def subTabCrLf : Bool → Str → Str
  | _, [] => []
  | inRun, c :: cs =>
    if tabCrLf c then
      if inRun then subTabCrLf true cs else ' ' :: subTabCrLf true cs
    else c :: subTabCrLf false cs

/-- `re.sub(r"\s{2,}", " ", s)`: each maximal run of at least two whitespace
characters becomes a single space; an isolated whitespace character is kept
as it is.  The state records whether the scanner is inside a run whose
replacement space has already been emitted. -/
def collapseWs : Bool → Str → Str
  | _, [] => []
  | inRun, c :: cs =>
    if pySpace c then
      if inRun then collapseWs true cs
      else
        match cs with
        | [] => [c]
        | d :: _ =>
          if pySpace d then ' ' :: collapseWs true cs
          else c :: collapseWs false cs
    else c :: collapseWs false cs

/-- `str.strip()`: drop leading and trailing Python whitespace. -/
def pyStrip (l : Str) : Str :=
  (l.dropWhile pySpace).rdropWhile pySpace

/-- `_sanitize_cell` (scrape.py): `None` becomes `""`; otherwise tab/CR/LF
runs are folded to one space, whitespace runs of length ≥ 2 are collapsed to
one space, and the result is stripped. -/
def sanitize_cell (x : Option Str) : Str :=
  match x with
  | none => []
  | some s => pyStrip (collapseWs false (subTabCrLf false s))

/-! ### Layout normalizer (`_normalize_layout`) -/

/-- The four room types of the alternation `(LDK|DK|K|R)`. -/
inductive RoomTy where
  | R
  | K
  | DK
  | LDK
deriving DecidableEq, Repr

/-- `order = {"R": 0, "K": 1, "DK": 2, "LDK": 3}`. -/
def RoomTy.rank : RoomTy → Nat
  | .R => 0
  | .K => 1
  | .DK => 2
  | .LDK => 3

/-- The upper-cased text of a room type (`typ.upper()`). -/
def RoomTy.str : RoomTy → Str
  | .R => ['R']
  | .K => ['K']
  | .DK => ['D', 'K']
  | .LDK => ['L', 'D', 'K']

/-- ASCII-case-insensitive match of one pattern letter (given in upper case)
against a subject character, as under `re.I`.  (Exotic Unicode case pairs
such as the Kelvin sign are outside the model.) -/
def charCI (up c : Char) : Bool :=
  c == up || c.toNat == up.toNat + 32

/-- Match a literal pattern case-insensitively at the head of the subject,
returning the remainder. -/
def stripCI : Str → Str → Option Str
  | [], l => some l
  | _ :: _, [] => none
  | p :: ps, c :: cs => if charCI p c then stripCI ps cs else none

/-- The ordered alternation `LDK|DK|K|R` at the head of the subject. -/
def matchRoomTy (l : Str) : Option (RoomTy × Str) :=
  match stripCI ['L', 'D', 'K'] l with
  | some r => some (.LDK, r)
  | none =>
    match stripCI ['D', 'K'] l with
    | some r => some (.DK, r)
    | none =>
      match stripCI ['K'] l with
      | some r => some (.K, r)
      | none =>
        match stripCI ['R'] l with
        | some r => some (.R, r)
        | none => none

/-- ASCII decimal digit. -/
def asciiDigit (c : Char) : Bool :=
  48 ≤ c.toNat && c.toNat ≤ 57

/-- Full-width decimal digit `０`–`９`. -/
def fwDigit (c : Char) : Bool :=
  0xff10 ≤ c.toNat && c.toNat ≤ 0xff19

/-- The character class `[0-9０-９]`. -/
def layoutDigit (c : Char) : Bool :=
  asciiDigit c || fwDigit c

/-- One attempt of `([0-9０-９]+)\s*(LDK|DK|K|R)` anchored at the head:
greedy digit run, then optional whitespace, then the room-type alternation.
Returns the digit group, the type, and the remainder after the match. -/
def matchLayout (l : Str) : Option (Str × RoomTy × Str) :=
  if (l.takeWhile layoutDigit).isEmpty then none
  else
    match matchRoomTy ((l.dropWhile layoutDigit).dropWhile pySpace) with
    | some (t, rest) => some (l.takeWhile layoutDigit, t, rest)
    | none => none

/-- `re.findall` for the layout pattern: scan left to right, at each position
try the anchored match; on success record the groups and resume after the
match, on failure advance one character.  The `Nat` argument counts
characters still to be skipped from a previous match. -/
def findLayoutGo : Nat → Str → List (Str × RoomTy)
  | _ + 1, [] => []
  | n + 1, _ :: cs => findLayoutGo n cs
  | 0, [] => []
  | 0, c :: cs =>
    match matchLayout (c :: cs) with
    | some (ds, t, rest) =>
      (ds, t) :: findLayoutGo ((c :: cs).length - rest.length - 1) cs
    | none => findLayoutGo 0 cs

/-- `str.maketrans("０１２３４５６７８９", "0123456789")`. -/
def fwFold10 (c : Char) : Char :=
  if fwDigit c then Char.ofNat (c.toNat - 0xff10 + 48) else c

/-- Value of an ASCII digit character. -/
def digitVal (c : Char) : Nat := c.toNat - 48

/-- `int()` on a (folded) digit string. -/
def parseNat (l : Str) : Nat :=
  l.foldl (fun a c => 10 * a + digitVal c) 0

/-- An extracted `(number, type)` pair. -/
abbrev Item := Nat × RoomTy

/-- Conversion of one regex hit: fold full-width digits, take the integer
value, keep the (upper-cased) type. -/
def toItem (h : Str × RoomTy) : Item :=
  (parseNat (h.1.map fwFold10), h.2)

/-- The sort key of `sorted(items, key=lambda x: (x[0], order.get(x[1], 99)))`:
numeric count first, then type rank. -/
def itemLe (a b : Item) : Prop :=
  a.1 < b.1 ∨ (a.1 = b.1 ∧ a.2.rank ≤ b.2.rank)

instance : DecidableRel itemLe := fun a b => by
  unfold itemLe; infer_instance

/-- The order claim C4 asserts, following the spec's words: ascending by
bedroom-category rank first, and by numeric count within equal rank.  (A
spec-side definition, to be compared with the source's `itemLe`.) -/
def itemRankLe (a b : Item) : Prop :=
  a.2.rank < b.2.rank ∨ (a.2.rank = b.2.rank ∧ a.1 ≤ b.1)

instance : DecidableRel itemRankLe := fun a b => by
  unfold itemRankLe; infer_instance

instance : IsTrans Item itemLe :=
  ⟨by intro a b c; unfold itemLe; omega⟩

instance : IsTotal Item itemLe :=
  ⟨by intro a b; unfold itemLe; omega⟩

instance : IsAntisymm Item itemLe := ⟨by
  intro a b hab hba
  obtain ⟨na, ta⟩ := a
  obtain ⟨nb, tb⟩ := b
  simp only [itemLe] at hab hba
  have h1 : na = nb := by omega
  have h2 : ta.rank = tb.rank := by omega
  have h3 : ta = tb := by
    cases ta <;> cases tb <;> simp [RoomTy.rank] at h2 ⊢
  rw [h1, h3]⟩

/-- The decimal digit characters of `str(n)`. -/
def digitChar : Nat → Char
  | 0 => '0'
  | 1 => '1'
  | 2 => '2'
  | 3 => '3'
  | 4 => '4'
  | 5 => '5'
  | 6 => '6'
  | 7 => '7'
  | 8 => '8'
  | _ => '9'

def natDigitsAux : Nat → Nat → Str
  | 0, _ => []
  | fuel + 1, n =>
    if n < 10 then [digitChar n]
    else natDigitsAux fuel (n / 10) ++ [digitChar (n % 10)]

/-- `str(n)` for a natural number. -/
def natToDigits (n : Nat) : Str := natDigitsAux (n + 1) n

/-- `f"{n}{t}"`: the rendered token, also the dedup key. -/
def renderItem (i : Item) : Str :=
  natToDigits i.1 ++ i.2.str

/-- The dedup loop of `_normalize_layout`: keep an item when its rendered
key has not been seen, first occurrence wins. -/
def dedupGo (seen : List Str) : List Item → List Item
  | [] => []
  | i :: is =>
    if renderItem i ∈ seen then dedupGo seen is
    else i :: dedupGo (renderItem i :: seen) is

/-- `"・".join(out)`. -/
def joinDots : List Str → Str
  | [] => []
  | [t] => t
  | t :: ts => t ++ '・' :: joinDots ts

/-- Does `pat` occur at the head of the subject? -/
def leadMatch : Str → Str → Bool
  | [], _ => true
  | _ :: _, [] => false
  | p :: ps, c :: cs => p == c && leadMatch ps cs

/-- Python's `pat in txt` substring test. -/
def strContains (pat : Str) : Str → Bool
  | [] => leadMatch pat []
  | c :: cs => leadMatch pat (c :: cs) || strContains pat cs

/-- The studio-marker literal `"ワンルーム"`. -/
def wanroom : Str := ['ワ', 'ン', 'ル', 'ー', 'ム']

/-- `raw.replace("　", " ")`. -/
def spaceFold (raw : Str) : Str :=
  raw.map fun c => if c = '　' then ' ' else c

/-- All `(number, type)` items extracted from the raw text. -/
def extractItems (raw : Str) : List Item :=
  (findLayoutGo 0 (spaceFold raw)).map toItem

/-- `_normalize_layout` (scrape.py): extract `(number, type)` pairs, return
the studio marker when none were found but the text contains it, otherwise
sort by `(count, rank)`, deduplicate keeping the first occurrence, and join
with `・`. -/
def normalize_layout (raw : Str) : Str :=
  let items := extractItems raw
  if items.isEmpty && strContains wanroom (spaceFold raw) then wanroom
  else joinDots ((dedupGo [] (List.insertionSort itemLe items)).map renderItem)

/-! ### Area normalizer (`_normalize_area`)

Python `float` values appear only to order the collected numbers and to
render the endpoints with `%g`; they are modelled as exact decimals
(numerator and power-of-ten denominator), and `%g` as round-half-up to six
significant digits. -/

/-- `s.replace("㎡", "m2")`. -/
def replaceSqm : Str → Str
  | [] => []
  | c :: cs =>
    if c = '㎡' then 'm' :: '2' :: replaceSqm cs else c :: replaceSqm cs

/-- `s.replace("m^2", "m2")`. -/
def replaceMCaret : Str → Str
  | [] => []
  | 'm' :: '^' :: '2' :: cs => 'm' :: '2' :: replaceMCaret cs
  | c :: cs => c :: replaceMCaret cs

/-- `re.sub(r"m\s*２", "m2", s)` as a scanner (the `Nat` argument counts
characters still to be skipped from a previous match). -/
def subM2Go : Nat → Str → Str
  | _ + 1, [] => []
  | n + 1, _ :: cs => subM2Go n cs
  | 0, [] => []
  | 0, c :: cs =>
    if c = 'm' then
      match cs.dropWhile pySpace with
      | '２' :: _ => 'm' :: '2' :: subM2Go ((cs.takeWhile pySpace).length + 1) cs
      | _ => c :: subM2Go 0 cs
    else c :: subM2Go 0 cs

/-- CPython's word-character class `\w` (Unicode), on the character ranges
of this domain: ASCII alphanumerics and underscore, full-width digits and
letters, hiragana, katakana (with the prolonged-sound mark), and the common
CJK ideographs. -/
def pyWord (c : Char) : Bool :=
  let n := c.toNat
  c.isAlphanum || c == '_' || fwDigit c ||
    (0xff21 ≤ n && n ≤ 0xff3a) || (0xff41 ≤ n && n ≤ 0xff5a) ||
    (0x3041 ≤ n && n ≤ 0x3096) || (0x30a1 ≤ n && n ≤ 0x30fa) ||
    n == 0x30fc || (0x4e00 ≤ n && n ≤ 0x9fff)

/-- `re.sub(r"\bm\s*$", "m2", s)`: a match exists exactly when the string
ends in `m` followed only by whitespace and the `m` sits at a word
boundary; the matched suffix becomes `m2`. -/
def subTrailM (l : Str) : Str :=
  match l.reverse.dropWhile pySpace with
  | 'm' :: pre =>
    match pre with
    | [] => ['m', '2']
    | p :: _ => if pyWord p then l else pre.reverse ++ ['m', '2']
  | _ => l

/-- `str.maketrans("０１２３４５６７８９．－", "0123456789.-")`. -/
def fwFoldArea (c : Char) : Char :=
  if fwDigit c then Char.ofNat (c.toNat - 0xff10 + 48)
  else if c = '．' then '.'
  else if c = '－' then '-'
  else c

/-- The character class `[：:/\-\s]` of the leading-junk strip. -/
def leadJunk (c : Char) : Bool :=
  c == '：' || c == ':' || c == '/' || c == '-' || pySpace c

/-- `re.sub(r"\s*(超|平均|前後|程度)", "", s)` as a scanner. -/
def subApproxGo : Nat → Str → Str
  | _ + 1, [] => []
  | n + 1, _ :: cs => subApproxGo n cs
  | 0, [] => []
  | 0, c :: cs =>
    let ws := (c :: cs).takeWhile pySpace
    match (c :: cs).dropWhile pySpace with
    | '超' :: _ => subApproxGo ws.length cs
    | '平' :: '均' :: _ => subApproxGo (ws.length + 1) cs
    | '前' :: '後' :: _ => subApproxGo (ws.length + 1) cs
    | '程' :: '度' :: _ => subApproxGo (ws.length + 1) cs
    | _ => c :: subApproxGo 0 cs

/-- `_to_m2` (scrape.py): fold the area-unit variants to `m2`, fold
full-width digits, strip leading punctuation and the "approximately"
suffixes. -/
def to_m2 (raw : Str) : Str :=
  subApproxGo 0
    (((subTrailM (subM2Go 0 (replaceMCaret (replaceSqm raw)))).map
        fwFoldArea).dropWhile leadJunk)

/-- The group `(\d+(?:\.\d+)?)` anchored at the head: greedy digits, then an
optional fraction taken only when a digit follows the dot. -/
def matchNum (l : Str) : Option (Str × Str) :=
  if (l.takeWhile asciiDigit).isEmpty then none
  else
    match l.dropWhile asciiDigit with
    | '.' :: r2 =>
      if (r2.takeWhile asciiDigit).isEmpty then
        some (l.takeWhile asciiDigit, '.' :: r2)
      else
        some (l.takeWhile asciiDigit ++ '.' :: r2.takeWhile asciiDigit,
          r2.dropWhile asciiDigit)
    | r => some (l.takeWhile asciiDigit, r)

/-- `\s*m2` anchored at the head. -/
def expectM2 (l : Str) : Option Str :=
  match l.dropWhile pySpace with
  | 'm' :: '2' :: rest => some rest
  | _ => none

/-- `(\d+(?:\.\d+)?)\s*m2` anchored at the head. -/
def matchNumM2 (l : Str) : Option (Str × Str) :=
  match matchNum l with
  | some (a, r1) =>
    match expectM2 r1 with
    | some r2 => some (a, r2)
    | none => none
  | none => none

/-- The explicit-range pattern
`(\d+(?:\.\d+)?)\s*m2\s*～\s*(\d+(?:\.\d+)?)\s*m2` anchored at the head.
The range dash is only the full-width wave dash `～` (U+FF5E), as in the
source. -/
def matchRange (l : Str) : Option (Str × Str) :=
  match matchNumM2 l with
  | some (a, r2) =>
    match r2.dropWhile pySpace with
    | '～' :: r3 =>
      match matchNumM2 (r3.dropWhile pySpace) with
      | some (b, _) => some (a, b)
      | none => none
    | _ => none
  | none => none

/-- `re.search` for the range pattern: the match at the leftmost possible
start position. -/
def searchRange : Str → Option (Str × Str)
  | [] => none
  | c :: cs =>
    match matchRange (c :: cs) with
    | some ab => some ab
    | none => searchRange cs

/-- `re.findall(r"(\d+(?:\.\d+)?)\s*m2", txt)` as a scanner. -/
def findNumsGo : Nat → Str → List Str
  | _ + 1, [] => []
  | n + 1, _ :: cs => findNumsGo n cs
  | 0, [] => []
  | 0, c :: cs =>
    match matchNumM2 (c :: cs) with
    | some (a, rest) => a :: findNumsGo ((c :: cs).length - rest.length - 1) cs
    | none => findNumsGo 0 cs

/-- An exact decimal: numerator and (power-of-ten) denominator.  Models the
Python `float` obtained from a matched number string. -/
abbrev Dec := Nat × Nat

/-- `float()` on a matched number string. -/
def parseDec (s : Str) : Dec :=
  let ip := s.takeWhile fun c => c ≠ '.'
  match s.dropWhile fun c => c ≠ '.' with
  | _ :: fp => (parseNat (ip ++ fp), 10 ^ fp.length)
  | [] => (parseNat ip, 1)

/-- Comparison of two decimals (cross multiplication). -/
def decLe (a b : Dec) : Prop := a.1 * b.2 ≤ b.1 * a.2

instance : DecidableRel decLe := fun a b => by
  unfold decLe; infer_instance

/-- `⌊log10 n⌋` (0 for `n < 10`); the first argument is fuel. -/
def natLog10 : Nat → Nat → Nat
  | 0, _ => 0
  | f + 1, n => if n < 10 then 0 else 1 + natLog10 f (n / 10)

/-- Smallest `j` with `m * 10 ^ j ≥ d`; the first argument is fuel. -/
def negExp10 : Nat → Nat → Nat → Nat
  | 0, _, _ => 0
  | f + 1, m, d => if d ≤ m then 0 else 1 + negExp10 f (m * 10) d

/-- `⌊log10 (n / d)⌋` of a positive decimal. -/
def decFloorLog10 (x : Dec) : Int :=
  if x.2 ≤ x.1 then (natLog10 x.1 (x.1 / x.2) : Int)
  else -((negExp10 x.2 (x.1 * 10) x.2 : Int) + 1)

/-- Strip trailing `'0'` characters. -/
def stripZerosRight (l : Str) : Str :=
  (l.reverse.dropWhile fun c => c == '0').reverse

/-- The signed, zero-padded exponent of `%g` scientific notation. -/
def expDigits (e : Int) : Str :=
  let a := natToDigits e.natAbs
  (if e < 0 then '-' else '+') :: (if a.length < 2 then '0' :: a else a)

/-- The value scaled to six significant digits and rounded half-up:
`⌊(n/d) · 10^(5−X) + 1/2⌋` for `X = ⌊log10 (n/d)⌋`. -/
def gRound6 (x : Dec) : Nat :=
  if 0 ≤ 5 - decFloorLog10 x then
    (2 * x.1 * 10 ^ (5 - decFloorLog10 x).toNat + x.2) / (2 * x.2)
  else
    (2 * x.1 + x.2 * 10 ^ (decFloorLog10 x - 5).toNat) /
      (2 * (x.2 * 10 ^ (decFloorLog10 x - 5).toNat))

/-- The six-digit mantissa, renormalized when rounding carried over. -/
def gMant (x : Dec) : Nat :=
  if gRound6 x = 10 ^ 6 then 10 ^ 5 else gRound6 x

/-- The decimal exponent, renormalized when rounding carried over. -/
def gExp (x : Dec) : Int :=
  if gRound6 x = 10 ^ 6 then decFloorLog10 x + 1 else decFloorLog10 x

/-- The significant digits with trailing zeros stripped. -/
def gSig (x : Dec) : Str :=
  stripZerosRight (natToDigits (gMant x))

/-- `%g` on a decimal: round to six significant digits (half up), strip
trailing zeros and a trailing point, scientific notation when the exponent
is at least 6 or below −4. -/
def gFormat (x : Dec) : Str :=
  if x.1 = 0 then ['0']
  else if 6 ≤ gExp x ∨ gExp x < -4 then
    match gSig x with
    | c :: rest =>
      c :: (if rest.isEmpty then [] else '.' :: rest) ++ 'e' :: expDigits (gExp x)
    | [] => []
  else if 0 ≤ gExp x then
    if ((gSig x).length : Int) ≤ gExp x + 1 then
      gSig x ++ List.replicate (gExp x + 1 - ((gSig x).length : Int)).toNat '0'
    else
      (gSig x).take (gExp x + 1).toNat ++ '.' :: (gSig x).drop (gExp x + 1).toNat
  else '0' :: '.' :: (List.replicate (-gExp x - 1).toNat '0' ++ gSig x)

/-- `f"{vals[0]:g}m2～{vals[-1]:g}m2"` over the sorted collected values. -/
def renderMinMax (nums : List Str) : Str :=
  let vals := List.insertionSort decLe (nums.map parseDec)
  gFormat (vals.headD (0, 1)) ++ 'm' :: '2' :: '～' ::
    (gFormat (vals.getLastD (0, 1)) ++ ['m', '2'])

/-- `_normalize_area` (scrape.py): fold units and digits, prefer an explicit
`～` range (endpoints kept verbatim), otherwise collect all `<number>m2`
occurrences and render min–max (two or more) or the single value verbatim;
as a last resort re-collect from the raw text with only `㎡` folded. -/
def normalize_area (raw : Str) : Str :=
  match searchRange (to_m2 raw) with
  | some (a, b) => a ++ 'm' :: '2' :: '～' :: (b ++ ['m', '2'])
  | none =>
    if 2 ≤ (findNumsGo 0 (to_m2 raw)).length then
      renderMinMax (findNumsGo 0 (to_m2 raw))
    else if (findNumsGo 0 (to_m2 raw)).length = 1 then
      (findNumsGo 0 (to_m2 raw)).headD [] ++ ['m', '2']
    else if 2 ≤ (findNumsGo 0 (replaceSqm raw)).length then
      renderMinMax (findNumsGo 0 (replaceSqm raw))
    else if (findNumsGo 0 (replaceSqm raw)).length = 1 then
      (findNumsGo 0 (replaceSqm raw)).headD [] ++ ['m', '2']
    else []

/-! ### Sheet writing and reconciliation (`write_to_sheet`) -/

/-- One scraped property record (the dict built by `fetch_property_infos`). -/
structure PropRecord where
  name : Str
  detail_url : Str
  image_url : Str
  address : Str
  layout : Str
  area : Str
  access : Str

/-- UTF-8 encoding of one character. -/
def utf8Bytes (c : Char) : List Nat :=
  let n := c.toNat
  if n < 0x80 then [n]
  else if n < 0x800 then [0xc0 + n / 64, 0x80 + n % 64]
  else if n < 0x10000 then [0xe0 + n / 4096, 0x80 + n / 64 % 64, 0x80 + n % 64]
  else [0xf0 + n / 262144, 0x80 + n / 4096 % 64, 0x80 + n / 64 % 64, 0x80 + n % 64]

/-- Upper-case hexadecimal digit. -/
def hexDigit (n : Nat) : Char :=
  if n < 10 then digitChar n
  else if n = 10 then 'A'
  else if n = 11 then 'B'
  else if n = 12 then 'C'
  else if n = 13 then 'D'
  else if n = 14 then 'E'
  else 'F'

/-- The characters `requests.utils.quote` leaves unescaped (always-safe
characters plus the default `safe='/'`). -/
def quoteSafe (c : Char) : Bool :=
  c.isAlphanum || c == '_' || c == '.' || c == '-' || c == '~' || c == '/'

/-- Percent-encode a byte sequence. -/
def percentBytes : List Nat → Str
  | [] => []
  | b :: bs => '%' :: hexDigit (b / 16) :: hexDigit (b % 16) :: percentBytes bs

/-- `requests.utils.quote`. -/
def pyQuote : Str → Str
  | [] => []
  | c :: cs =>
    (if quoteSafe c then [c] else percentBytes (utf8Bytes c)) ++ pyQuote cs

/-- `f"https://www.e-mansion.co.jp/bbs/search/{quote(name)}"`. -/
def mansionUrl (name : Str) : Str :=
  "https://www.e-mansion.co.jp/bbs/search/".toList ++ pyQuote name

/-- `f"https://www.google.com/search?q={quote(name)}"`. -/
def googleUrl (name : Str) : Str :=
  "https://www.google.com/search?q=".toList ++ pyQuote name

/-- The 10-cell row built by `write_to_sheet` (scrape.py), including the
final `row += [""] * (10 - len(row))` padding.  `resolve` stands for the
external `get_official_url`. -/
def buildRow (today : Str) (resolve : Str → Str) (p : PropRecord) : List Str :=
  let row :=
    [today,
     sanitize_cell (some p.name),
     sanitize_cell (some (mansionUrl p.name)),
     sanitize_cell (some (googleUrl p.name)),
     sanitize_cell (some (resolve p.name)),
     sanitize_cell (some p.image_url),
     sanitize_cell (some p.address),
     sanitize_cell (some (normalize_layout p.layout)),
     sanitize_cell (some (normalize_area p.area)),
     sanitize_cell (some p.access)]
  row ++ List.replicate (10 - row.length) []

/-- The reconciliation loop of `write_to_sheet` (scrape.py): a record whose
name is in the existing-names snapshot is skipped, every other record
contributes one appended row.  The snapshot is not re-read or extended
during the loop. -/
def rows_to_append (resolve : Str → Str) (today : Str) (existing : List Str) :
    List PropRecord → List (List Str)
  | [] => []
  | p :: ps =>
    if p.name ∈ existing then rows_to_append resolve today existing ps
    else buildRow today resolve p :: rows_to_append resolve today existing ps

/-- The sheet state after one `write_to_sheet` run: the stored data rows
(header row outside the model; the name column is cell 1, the official URL
cell 4) followed by the appended rows.  The existing-names snapshot is the
stored name column. -/
def sheet_after (resolve : Str → Str) (today : Str) (stored : List (List Str))
    (props : List PropRecord) : List (List Str) :=
  stored ++ rows_to_append resolve today (stored.map fun r => r.getD 1 []) props

namespace April

/-- `f"https://www.e-mansion.co.jp/bbs/search/%E7%89%A9%E4%BB%B6?q={name}"`
(fetch_april_properties.py interpolates the name unquoted). -/
def mansionUrl (name : Str) : Str :=
  "https://www.e-mansion.co.jp/bbs/search/%E7%89%A9%E4%BB%B6?q=".toList ++ name

/-- `f"https://www.google.com/search?q={name}"`. -/
def googleUrl (name : Str) : Str :=
  "https://www.google.com/search?q=".toList ++ name

/-- The row `sheet.append_row([today, name, url_mansion, url_google,
url_official])` of `write_to_sheet` (fetch_april_properties.py). -/
def row (resolve : Str → Str) (today name : Str) : List Str :=
  [today, name, mansionUrl name, googleUrl name, resolve name]

/-- The reconciliation loop of `write_to_sheet`
(fetch_april_properties.py) over `(name, detail_url)` pairs. -/
def rows_to_append (resolve : Str → Str) (today : Str) (existing : List Str) :
    List (Str × Str) → List (List Str)
  | [] => []
  | r :: rs =>
    if r.1 ∈ existing then rows_to_append resolve today existing rs
    else row resolve today r.1 :: rows_to_append resolve today existing rs

end April

/-! ### Properties of the sanitizer -/

/-- Adjacent characters are never both whitespace. -/
def wsApart (l : Str) : Prop :=
  List.Chain' (fun a b => pySpace a = false ∨ pySpace b = false) l

/-! One-step equation lemmas for the two run scanners. -/

lemma subTabCrLf_nil (b : Bool) : subTabCrLf b [] = [] := rfl

lemma subTabCrLf_pos_true {d : Char} (cs : Str) (hd : tabCrLf d = true) :
    subTabCrLf true (d :: cs) = subTabCrLf true cs := by
  simp only [subTabCrLf, hd, if_true]

lemma subTabCrLf_pos_false {d : Char} (cs : Str) (hd : tabCrLf d = true) :
    subTabCrLf false (d :: cs) = ' ' :: subTabCrLf true cs := by
  simp only [subTabCrLf, hd, if_true, Bool.false_eq_true, if_false]

lemma subTabCrLf_neg (b : Bool) {d : Char} (cs : Str) (hd : tabCrLf d = false) :
    subTabCrLf b (d :: cs) = d :: subTabCrLf false cs := by
  simp only [subTabCrLf, hd, Bool.false_eq_true, if_false]

lemma collapseWs_nil (b : Bool) : collapseWs b [] = [] := rfl

lemma collapseWs_pos_true {d : Char} (cs : Str) (hd : pySpace d = true) :
    collapseWs true (d :: cs) = collapseWs true cs := by
  simp only [collapseWs, hd, if_true]

lemma collapseWs_pos_false_nil {d : Char} (hd : pySpace d = true) :
    collapseWs false [d] = [d] := by
  simp only [collapseWs, hd, if_true, Bool.false_eq_true, if_false]

lemma collapseWs_pos_false_pos {d e : Char} (es : Str) (hd : pySpace d = true)
    (he : pySpace e = true) :
    collapseWs false (d :: e :: es) = ' ' :: collapseWs true (e :: es) := by
  rw [collapseWs.eq_def]
  simp only [hd, he, if_true, Bool.false_eq_true, if_false]

lemma collapseWs_pos_false_neg {d e : Char} (es : Str) (hd : pySpace d = true)
    (he : pySpace e = false) :
    collapseWs false (d :: e :: es) = d :: collapseWs false (e :: es) := by
  rw [collapseWs.eq_def]
  simp only [hd, he, if_true, Bool.false_eq_true, if_false]

lemma collapseWs_neg (b : Bool) {d : Char} (cs : Str) (hd : pySpace d = false) :
    collapseWs b (d :: cs) = d :: collapseWs false cs := by
  rw [collapseWs.eq_def]
  simp only [hd, Bool.false_eq_true, if_false]

lemma mem_subTabCrLf (b : Bool) (l : Str) :
    ∀ c ∈ subTabCrLf b l, tabCrLf c = false := by
  induction l generalizing b with
  | nil => simp [subTabCrLf_nil]
  | cons d cs ih =>
    intro c hc
    cases hd : tabCrLf d with
    | true =>
      cases b with
      | true => rw [subTabCrLf_pos_true cs hd] at hc; exact ih true c hc
      | false =>
        rw [subTabCrLf_pos_false cs hd, List.mem_cons] at hc
        rcases hc with rfl | hc
        · rfl
        · exact ih true c hc
    | false =>
      rw [subTabCrLf_neg b cs hd, List.mem_cons] at hc
      rcases hc with rfl | hc
      · exact hd
      · exact ih false c hc

lemma subTabCrLf_eq_self (l : Str) (h : ∀ c ∈ l, tabCrLf c = false) :
    subTabCrLf false l = l := by
  induction l with
  | nil => rfl
  | cons d cs ih =>
    rw [subTabCrLf_neg false cs (h d (by simp))]
    rw [ih (fun c hc => h c (List.mem_cons_of_mem _ hc))]

lemma mem_collapseWs (b : Bool) (l : Str) :
    ∀ c ∈ collapseWs b l, c = ' ' ∨ c ∈ l := by
  induction l generalizing b with
  | nil => simp [collapseWs_nil]
  | cons d cs ih =>
    intro c hc
    cases hd : pySpace d with
    | true =>
      cases b with
      | true =>
        rw [collapseWs_pos_true cs hd] at hc
        rcases ih true c hc with h | h
        · exact Or.inl h
        · exact Or.inr (List.mem_cons_of_mem _ h)
      | false =>
        match cs with
        | [] =>
          rw [collapseWs_pos_false_nil hd] at hc
          exact Or.inr hc
        | e :: es =>
          cases he : pySpace e with
          | true =>
            rw [collapseWs_pos_false_pos es hd he, List.mem_cons] at hc
            rcases hc with rfl | hc
            · exact Or.inl rfl
            · rcases ih true c hc with h | h
              · exact Or.inl h
              · exact Or.inr (List.mem_cons_of_mem _ h)
          | false =>
            rw [collapseWs_pos_false_neg es hd he, List.mem_cons] at hc
            rcases hc with rfl | hc
            · exact Or.inr (by simp)
            · rcases ih false c hc with h | h
              · exact Or.inl h
              · exact Or.inr (List.mem_cons_of_mem _ h)
    | false =>
      rw [collapseWs_neg b cs hd, List.mem_cons] at hc
      rcases hc with rfl | hc
      · exact Or.inr (by simp)
      · rcases ih false c hc with h | h
        · exact Or.inl h
        · exact Or.inr (List.mem_cons_of_mem _ h)

/-- In the skipping state, the first emitted character is not whitespace. -/
lemma collapseWs_true_head (l : Str) :
    ∀ c cs, collapseWs true l = c :: cs → pySpace c = false := by
  induction l with
  | nil => intro c cs h; simp [collapseWs_nil] at h
  | cons d ds ih =>
    intro c cs h
    cases hd : pySpace d with
    | true => rw [collapseWs_pos_true ds hd] at h; exact ih c cs h
    | false =>
      rw [collapseWs_neg true ds hd] at h
      rw [← (List.cons.injEq ..).mp h |>.1]
      exact hd

lemma wsApart_collapseWs (b : Bool) (l : Str) : wsApart (collapseWs b l) := by
  induction l generalizing b with
  | nil => simp [collapseWs_nil, wsApart]
  | cons d cs ih =>
    cases hd : pySpace d with
    | true =>
      cases b with
      | true => rw [collapseWs_pos_true cs hd]; exact ih true
      | false =>
        match cs with
        | [] => rw [collapseWs_pos_false_nil hd]; exact List.chain'_singleton d
        | e :: es =>
          cases he : pySpace e with
          | true =>
            rw [collapseWs_pos_false_pos es hd he]
            rw [wsApart, List.chain'_cons']
            refine ⟨fun y hy => ?_, ih true⟩
            cases hce : collapseWs true (e :: es) with
            | nil => rw [hce] at hy; simp at hy
            | cons z zs =>
              rw [hce] at hy
              simp only [List.head?_cons, Option.mem_def, Option.some.injEq] at hy
              subst hy
              exact Or.inr (collapseWs_true_head _ _ _ hce)
          | false =>
            rw [collapseWs_pos_false_neg es hd he]
            rw [wsApart, List.chain'_cons']
            refine ⟨fun y hy => ?_, ih false⟩
            rw [collapseWs_neg false es he] at hy
            simp only [List.head?_cons, Option.mem_def, Option.some.injEq] at hy
            subst hy
            exact Or.inr he
    | false =>
      rw [collapseWs_neg b cs hd]
      rw [wsApart, List.chain'_cons']
      exact ⟨fun y _ => Or.inl hd, ih false⟩

lemma collapseWs_eq_self (l : Str) (h : wsApart l) : collapseWs false l = l := by
  induction l with
  | nil => rfl
  | cons d cs ih =>
    cases hd : pySpace d with
    | true =>
      match cs with
      | [] => exact collapseWs_pos_false_nil hd
      | e :: es =>
        have he : pySpace e = false := by
          rw [wsApart, List.chain'_cons'] at h
          rcases h.1 e (by simp) with h' | h'
          · rw [hd] at h'; cases h'
          · exact h'
        rw [collapseWs_pos_false_neg es hd he]
        rw [ih (List.Chain'.tail h)]
    | false =>
      rw [collapseWs_neg false cs hd]
      rw [ih (List.Chain'.tail h)]

/-- `pyStrip` keeps a contiguous infix of its argument. -/
lemma pyStrip_segment (l : Str) : pyStrip l <:+: l :=
  List.IsInfix.trans
    (List.IsPrefix.isInfix (List.rdropWhile_prefix _ _))
    (List.IsSuffix.isInfix (List.dropWhile_suffix _))

lemma sanitize_cell_no_trn (x : Option Str) :
    ∀ c ∈ sanitize_cell x, tabCrLf c = false := by
  intro c hc
  match x with
  | none => simp [sanitize_cell] at hc
  | some s =>
    have hc' : c ∈ collapseWs false (subTabCrLf false s) :=
      (pyStrip_segment _).sublist.subset hc
    rcases mem_collapseWs false _ c hc' with rfl | hc'
    · rfl
    · exact mem_subTabCrLf false _ c hc'

lemma sanitize_cell_wsApart (x : Option Str) : wsApart (sanitize_cell x) := by
  match x with
  | none => simp [sanitize_cell, wsApart]
  | some s =>
    exact List.Chain'.infix (wsApart_collapseWs false (subTabCrLf false s))
      (pyStrip_segment _)

lemma pyStrip_idem (l : Str) : pyStrip (pyStrip l) = pyStrip l := by
  unfold pyStrip
  cases hc : (l.dropWhile pySpace).rdropWhile pySpace with
  | nil => simp
  | cons a as =>
    have hpre := List.rdropWhile_prefix pySpace (l.dropWhile pySpace)
    rw [hc] at hpre
    obtain ⟨r, hr⟩ := hpre
    have htne : l.dropWhile pySpace ≠ [] := by rw [← hr]; simp
    have ha : pySpace a = false := by
      have hh := List.head_dropWhile_not pySpace l htne
      have h2 : (l.dropWhile pySpace).head? = some a := by rw [← hr]; rfl
      rw [List.head?_eq_head htne] at h2
      rw [Option.some.inj h2] at hh
      exact hh
    rw [List.dropWhile_cons, if_neg (by simp [ha])]
    have hi := List.rdropWhile_idempotent pySpace (l.dropWhile pySpace)
    rw [hc] at hi
    exact hi

lemma sanitize_cell_idem (x : Option Str) :
    sanitize_cell (some (sanitize_cell x)) = sanitize_cell x := by
  match x with
  | none => rfl
  | some s =>
    show pyStrip (collapseWs false (subTabCrLf false (sanitize_cell (some s)))) =
      sanitize_cell (some s)
    rw [subTabCrLf_eq_self _ (sanitize_cell_no_trn (some s))]
    rw [collapseWs_eq_self _ (sanitize_cell_wsApart (some s))]
    exact pyStrip_idem _

/-- **C8.** For every input (including the absent/`None` input, which yields
the empty string), `_sanitize_cell` is idempotent, and its result never
contains a tab, carriage-return or line-feed character, nor two consecutive
spaces. -/
theorem sanitize_cell_idempotent_and_clean (x : Option Str) (c : Char)
    (hc : c ∈ sanitize_cell x) :
    sanitize_cell (some (sanitize_cell x)) = sanitize_cell x ∧
    sanitize_cell none = [] ∧
    (c ≠ '\t' ∧ c ≠ '\r' ∧ c ≠ '\n') ∧
    ¬ ([' ', ' '] : Str) <:+: sanitize_cell x := by
  refine ⟨sanitize_cell_idem x, rfl, ?_, ?_⟩
  · have h := sanitize_cell_no_trn x c hc
    simp only [tabCrLf, Bool.or_eq_false_iff, beq_eq_false_iff_ne, ne_eq] at h
    exact ⟨h.1.1, h.1.2, h.2⟩
  · intro hinf
    have h2 := List.Chain'.infix (sanitize_cell_wsApart x) hinf
    rw [List.chain'_cons'] at h2
    rcases h2.1 ' ' (by simp) with h | h <;> revert h <;> decide

/-- Witness for C8 at the concrete input `"a\t\tb  c"`. -/
theorem sanitize_cell_idempotent_and_clean_witness :
    sanitize_cell (some (sanitize_cell (some "a\t\tb  c".toList))) =
      sanitize_cell (some "a\t\tb  c".toList) ∧
    sanitize_cell none = [] ∧
    (('a' : Char) ≠ '\t' ∧ ('a' : Char) ≠ '\r' ∧ ('a' : Char) ≠ '\n') ∧
    ¬ ([' ', ' '] : Str) <:+: sanitize_cell (some "a\t\tb  c".toList) :=
  sanitize_cell_idempotent_and_clean (some "a\t\tb  c".toList) 'a' (by decide)

/-! ### The reconciliation step: C2, C3, C9 -/

lemma rows_to_append_eq_filter (resolve : Str → Str) (today : Str)
    (existing : List Str) (props : List PropRecord) :
    rows_to_append resolve today existing props =
      (props.filter fun p => decide (p.name ∉ existing)).map
        (buildRow today resolve) := by
  induction props with
  | nil => rfl
  | cons p ps ih =>
    by_cases hp : p.name ∈ existing
    · simp [rows_to_append, List.filter_cons, hp, ih]
    · simp [rows_to_append, List.filter_cons, hp, ih]

/-- **C2 (counterexample).** With the stored rows holding one row named `A`
whose official-URL cell (cell 4) is empty, and an input record also named
`A`, `write_to_sheet` leaves the sheet exactly as it was — the record is
skipped outright and the empty official-URL cell is not patched, even
though the resolver would return a non-empty URL. -/
theorem write_skips_despite_empty_official_url :
    sheet_after (fun _ => "https://example.co.jp".toList) "2025/04/02".toList
        [["2025/04/01".toList, "A".toList, [], [], [], [], [], [], [], []]]
        [⟨"A".toList, [], [], [], [], [], []⟩] =
      [["2025/04/01".toList, "A".toList, [], [], [], [], [], [], [], []]] ∧
    (["2025/04/01".toList, "A".toList, [], [], [], [], [], [], [], []] :
        List Str).getD 4 [] = [] ∧
    (fun _ : Str => "https://example.co.jp".toList) "A".toList ≠ [] := by
  refine ⟨?_, rfl, by decide⟩
  rfl

/-- **C2 (amended).** `write_to_sheet` has no update path: a record whose
name is already in the stored name column is always skipped — the run's
final sheet is the stored rows, unchanged, followed by exactly one new row
for each record whose name is absent from the snapshot. -/
theorem write_to_sheet_never_updates (resolve : Str → Str) (today : Str)
    (stored : List (List Str)) (props : List PropRecord) :
    sheet_after resolve today stored props =
      stored ++
        (props.filter fun p =>
            decide (p.name ∉ stored.map fun r => r.getD 1 [])).map
          (buildRow today resolve) := by
  unfold sheet_after
  rw [rows_to_append_eq_filter]

/-- **C3 (counterexample).** `write_to_sheet` of fetch_april_properties.py
appends a row with five cells, not ten. -/
theorem april_row_has_five_cells :
    (April.row (fun _ => []) "2025/04/01".toList "A".toList).length = 5 ∧
    (April.row (fun _ => []) "2025/04/01".toList "A".toList).length ≠ 10 := by
  constructor <;> decide

/-- **C3 (amended).** Every row appended by `write_to_sheet` of scrape.py
has exactly ten cells (the explicit padding never adds any, the literal row
already having ten); every row appended by `write_to_sheet` of
fetch_april_properties.py has exactly five. -/
theorem row_cell_counts (resolve : Str → Str) (today name : Str)
    (p : PropRecord) :
    (buildRow today resolve p).length = 10 ∧
    (April.row resolve today name).length = 5 := by
  constructor <;> rfl

/-- **C9.** A run in which every record's name is already present in the
existing-names snapshot appends no rows, in both scripts'
`write_to_sheet`. -/
theorem rerun_inserts_nothing (resolve : Str → Str) (today : Str)
    (existing : List Str) (props : List PropRecord)
    (results : List (Str × Str))
    (h : ∀ p ∈ props, p.name ∈ existing)
    (h2 : ∀ r ∈ results, r.1 ∈ existing) :
    rows_to_append resolve today existing props = [] ∧
    April.rows_to_append resolve today existing results = [] := by
  constructor
  · induction props with
    | nil => rfl
    | cons p ps ih =>
      rw [rows_to_append, if_pos (h p (by simp))]
      exact ih fun q hq => h q (List.mem_cons_of_mem _ hq)
  · induction results with
    | nil => rfl
    | cons r rs ih =>
      rw [April.rows_to_append, if_pos (h2 r (by simp))]
      exact ih fun q hq => h2 q (List.mem_cons_of_mem _ hq)

/-- Witness for C9 at a concrete snapshot and batch. -/
theorem rerun_inserts_nothing_witness :
    rows_to_append (fun _ => []) "2025/04/02".toList ["A".toList]
        [⟨"A".toList, [], [], [], [], [], []⟩] = [] ∧
    April.rows_to_append (fun _ => []) "2025/04/02".toList ["A".toList]
        [("A".toList, "https://x.example".toList)] = [] :=
  rerun_inserts_nothing (fun _ => []) "2025/04/02".toList ["A".toList]
    [⟨"A".toList, [], [], [], [], [], []⟩]
    [("A".toList, "https://x.example".toList)] (by decide) (by decide)

/-! ### Decimal rendering: `str(n)` round-trips through `int()` -/

lemma asciiDigit_digitChar (k : Nat) : asciiDigit (digitChar k) = true := by
  rcases k with _ | _ | _ | _ | _ | _ | _ | _ | _ | k
  all_goals first
    | decide
    | exact (by decide : asciiDigit '9' = true)

lemma digitVal_digitChar (k : Nat) (h : k < 10) : digitVal (digitChar k) = k := by
  interval_cases k <;> decide

lemma natDigitsAux_eq (n : Nat) : ∀ f, n < f → natDigitsAux f n = natToDigits n := by
  induction n using Nat.strong_induction_on with
  | _ n ih =>
    intro f hf
    cases f with
    | zero => omega
    | succ f =>
      by_cases h10 : n < 10
      · rw [natDigitsAux, if_pos h10, natToDigits, natDigitsAux, if_pos h10]
      · rw [natDigitsAux, if_neg h10, natToDigits, natDigitsAux, if_neg h10]
        have hd : n / 10 < n := by omega
        rw [ih _ hd f (by omega), ih _ hd n (by omega)]

/-- The recursion of `str(n)` with the fuel removed. -/
lemma natToDigits_unfold (n : Nat) :
    natToDigits n =
      if n < 10 then [digitChar n]
      else natToDigits (n / 10) ++ [digitChar (n % 10)] := by
  by_cases h10 : n < 10
  · rw [natToDigits, natDigitsAux, if_pos h10, if_pos h10]
  · rw [natToDigits, natDigitsAux, if_neg h10, if_neg h10,
      natDigitsAux_eq (n / 10) n (by omega)]

lemma natToDigits_ne_nil (n : Nat) : natToDigits n ≠ [] := by
  rw [natToDigits_unfold]
  by_cases h10 : n < 10
  · rw [if_pos h10]; simp
  · rw [if_neg h10]; simp

lemma mem_natToDigits (n : Nat) : ∀ c ∈ natToDigits n, asciiDigit c = true := by
  induction n using Nat.strong_induction_on with
  | _ n ih =>
    intro c hc
    rw [natToDigits_unfold] at hc
    by_cases h10 : n < 10
    · rw [if_pos h10] at hc
      simp only [List.mem_singleton] at hc
      rw [hc]; exact asciiDigit_digitChar n
    · rw [if_neg h10] at hc
      rcases List.mem_append.mp hc with hc | hc
      · exact ih (n / 10) (by omega) c hc
      · simp only [List.mem_singleton] at hc
        rw [hc]; exact asciiDigit_digitChar (n % 10)

lemma parseNat_append_digit (xs : Str) (c : Char) :
    parseNat (xs ++ [c]) = 10 * parseNat xs + digitVal c := by
  unfold parseNat
  rw [List.foldl_append]
  rfl

lemma parseNat_natToDigits (n : Nat) : parseNat (natToDigits n) = n := by
  induction n using Nat.strong_induction_on with
  | _ n ih =>
    rw [natToDigits_unfold]
    by_cases h10 : n < 10
    · rw [if_pos h10]
      show 10 * 0 + digitVal (digitChar n) = n
      rw [digitVal_digitChar n h10]; omega
    · rw [if_neg h10, parseNat_append_digit, ih (n / 10) (by omega),
        digitVal_digitChar (n % 10) (by omega)]
      omega

lemma natToDigits_injective : Function.Injective natToDigits := by
  intro a b h
  have := parseNat_natToDigits a
  rw [h, parseNat_natToDigits] at this
  omega

/-! ### Scanning the rendered layout tokens back out -/

lemma takeWhile_append_cons {p : Char → Bool} (xs : Str) (y : Char) (ys : Str)
    (hxs : ∀ c ∈ xs, p c = true) (hy : p y = false) :
    (xs ++ y :: ys).takeWhile p = xs := by
  induction xs with
  | nil => simp [List.takeWhile_cons, hy]
  | cons x xs ih =>
    rw [List.cons_append, List.takeWhile_cons, hxs x (by simp), if_pos rfl,
      ih fun c hc => hxs c (List.mem_cons_of_mem _ hc)]

lemma dropWhile_append_cons {p : Char → Bool} (xs : Str) (y : Char) (ys : Str)
    (hxs : ∀ c ∈ xs, p c = true) (hy : p y = false) :
    (xs ++ y :: ys).dropWhile p = y :: ys := by
  induction xs with
  | nil => simp [List.dropWhile_cons, hy]
  | cons x xs ih =>
    rw [List.cons_append, List.dropWhile_cons, hxs x (by simp), if_pos rfl]
    exact ih fun c hc => hxs c (List.mem_cons_of_mem _ hc)

/-- The room-type alternectives match their own rendered text, leaving the
rest untouched. -/
lemma matchRoomTy_render (t : RoomTy) (s : Str) :
    matchRoomTy (t.str ++ s) = some (t, s) := by
  have hLL : charCI 'L' 'L' = true := by decide
  have hDD : charCI 'D' 'D' = true := by decide
  have hKK : charCI 'K' 'K' = true := by decide
  have hRR : charCI 'R' 'R' = true := by decide
  have hLD : charCI 'L' 'D' = false := by decide
  have hLK : charCI 'L' 'K' = false := by decide
  have hLR : charCI 'L' 'R' = false := by decide
  have hDK : charCI 'D' 'K' = false := by decide
  have hDR : charCI 'D' 'R' = false := by decide
  have hKR : charCI 'K' 'R' = false := by decide
  cases t <;>
    simp [RoomTy.str, matchRoomTy, stripCI, hLL, hDD, hKK, hRR, hLD, hLK,
      hLR, hDK, hDR, hKR]

lemma isEmpty_false_of_ne_nil {α : Type} {l : List α} (h : l ≠ []) :
    l.isEmpty = false := by
  cases l with
  | nil => exact absurd rfl h
  | cons a as => rfl

/-- The anchored layout pattern recognises a rendered item and stops exactly
at the end of its token, for any continuation. -/
lemma matchLayout_render (n : Nat) (t : RoomTy) (s : Str) :
    matchLayout (natToDigits n ++ (t.str ++ s)) = some (natToDigits n, t, s) := by
  have hall : ∀ c ∈ natToDigits n, layoutDigit c = true := fun c hc => by
    simp [layoutDigit, mem_natToDigits n c hc]
  obtain ⟨c, cs, hcs, hld, hws⟩ :
      ∃ c cs, t.str ++ s = c :: cs ∧ layoutDigit c = false ∧ pySpace c = false := by
    cases t <;> exact ⟨_, _, rfl, by decide, by decide⟩
  unfold matchLayout
  rw [hcs, takeWhile_append_cons _ _ _ hall hld,
    dropWhile_append_cons _ _ _ hall hld,
    isEmpty_false_of_ne_nil (natToDigits_ne_nil n),
    List.dropWhile_cons, hws]
  simp only [Bool.false_eq_true, if_false]
  rw [← hcs, matchRoomTy_render]

lemma findLayoutGo_skip (xs s : Str) :
    findLayoutGo xs.length (xs ++ s) = findLayoutGo 0 s := by
  induction xs with
  | nil => rfl
  | cons x xs ih => exact ih

/-- A rendered token at the head of the subject is extracted whole. -/
lemma findLayoutGo_render_cons (n : Nat) (t : RoomTy) (s : Str) :
    findLayoutGo 0 (natToDigits n ++ (t.str ++ s)) =
      (natToDigits n, t) :: findLayoutGo 0 s := by
  have hmatch := matchLayout_render n t s
  obtain ⟨a, as, hnd⟩ : ∃ a as, natToDigits n = a :: as := by
    cases h : natToDigits n with
    | nil => exact absurd h (natToDigits_ne_nil n)
    | cons a as => exact ⟨a, as, rfl⟩
  have hfull : natToDigits n ++ (t.str ++ s) = a :: ((as ++ t.str) ++ s) := by
    rw [hnd]; simp
  rw [hfull] at hmatch ⊢
  rw [findLayoutGo, hmatch]
  have harith : (a :: ((as ++ t.str) ++ s)).length - s.length - 1 =
      (as ++ t.str).length := by
    simp only [List.length_cons, List.length_append]
    omega
  show (natToDigits n, t) ::
      findLayoutGo ((a :: ((as ++ t.str) ++ s)).length - s.length - 1)
        ((as ++ t.str) ++ s) =
    (natToDigits n, t) :: findLayoutGo 0 s
  rw [harith, findLayoutGo_skip]

lemma findLayoutGo_dot (rest : Str) :
    findLayoutGo 0 ('・' :: rest) = findLayoutGo 0 rest := by
  rw [findLayoutGo]
  have h : matchLayout ('・' :: rest) = none := by
    unfold matchLayout
    rw [List.takeWhile_cons, show layoutDigit '・' = false from by decide]
    rfl
  rw [h]

/-- Scanning the joined rendering recovers exactly the rendered items. -/
lemma findLayoutGo_joinDots (L : List Item) :
    findLayoutGo 0 (joinDots (L.map renderItem)) =
      L.map fun i => (natToDigits i.1, i.2) := by
  induction L with
  | nil => rfl
  | cons i L ih =>
    match L with
    | [] =>
      show findLayoutGo 0 (renderItem i) = [(natToDigits i.1, i.2)]
      have h := findLayoutGo_render_cons i.1 i.2 []
      rw [List.append_nil] at h
      exact h
    | j :: L' =>
      show findLayoutGo 0
          (renderItem i ++ '・' :: joinDots ((j :: L').map renderItem)) = _
      have h := findLayoutGo_render_cons i.1 i.2
        ('・' :: joinDots ((j :: L').map renderItem))
      rw [show renderItem i ++ '・' :: joinDots ((j :: L').map renderItem) =
          natToDigits i.1 ++ (i.2.str ++ ('・' :: joinDots ((j :: L').map renderItem)))
          from by rw [renderItem, List.append_assoc]]
      rw [h, findLayoutGo_dot, ih]
      rfl

lemma fwFold10_ascii (c : Char) (h : asciiDigit c = true) : fwFold10 c = c := by
  unfold fwFold10
  rw [if_neg]
  simp only [asciiDigit, Bool.and_eq_true, decide_eq_true_eq] at h
  simp only [fwDigit, Bool.and_eq_true, decide_eq_true_eq, not_and]
  omega

lemma toItem_render (i : Item) : toItem (natToDigits i.1, i.2) = i := by
  obtain ⟨n, t⟩ := i
  unfold toItem
  simp only
  have hmap : (natToDigits n).map fwFold10 = natToDigits n := by
    calc (natToDigits n).map fwFold10
        = (natToDigits n).map id :=
          List.map_congr_left fun c hc => fwFold10_ascii c (mem_natToDigits n c hc)
      _ = natToDigits n := List.map_id _
  rw [hmap, parseNat_natToDigits]

lemma mem_joinDots (ts : List Str) :
    ∀ c ∈ joinDots ts, c = '・' ∨ ∃ t ∈ ts, c ∈ t := by
  induction ts with
  | nil => simp [joinDots]
  | cons x ts ih =>
    intro c hc
    match ts with
    | [] =>
      exact Or.inr ⟨x, by simp, hc⟩
    | y :: ts' =>
      have hc' : c ∈ x ++ '・' :: joinDots (y :: ts') := hc
      rcases List.mem_append.mp hc' with h | h
      · exact Or.inr ⟨x, by simp, h⟩
      · rcases List.mem_cons.mp h with rfl | h
        · exact Or.inl rfl
        · rcases ih c h with h1 | ⟨t, ht, hct⟩
          · exact Or.inl h1
          · exact Or.inr ⟨t, List.mem_cons_of_mem _ ht, hct⟩

lemma mem_renderItem_ne_fwspace (i : Item) : ∀ c ∈ renderItem i, c ≠ '　' := by
  intro c hc
  unfold renderItem at hc
  rcases List.mem_append.mp hc with h | h
  · have hd := mem_natToDigits i.1 c h
    intro he
    rw [he] at hd
    exact absurd hd (by decide)
  · intro he
    rw [he] at h
    revert h
    cases i.2 <;> decide

lemma spaceFold_joinDots (L : List Item) :
    spaceFold (joinDots (L.map renderItem)) = joinDots (L.map renderItem) := by
  unfold spaceFold
  calc (joinDots (L.map renderItem)).map (fun c => if c = '　' then ' ' else c)
      = (joinDots (L.map renderItem)).map id := by
        refine List.map_congr_left fun c hc => ?_
        rcases mem_joinDots _ c hc with rfl | ⟨t, ht, hct⟩
        · rfl
        · obtain ⟨i, _, rfl⟩ := List.mem_map.mp ht
          simp [mem_renderItem_ne_fwspace i c hct]
    _ = joinDots (L.map renderItem) := List.map_id _

/-- Extraction is a left inverse of rendering. -/
lemma extractItems_joinDots (L : List Item) :
    extractItems (joinDots (L.map renderItem)) = L := by
  unfold extractItems
  rw [spaceFold_joinDots, findLayoutGo_joinDots, List.map_map]
  calc L.map (toItem ∘ fun i => (natToDigits i.1, i.2))
      = L.map id := List.map_congr_left fun i _ => toItem_render i
    _ = L := List.map_id _

/-! ### Deduplication and sorting -/

lemma renderItem_injective : Function.Injective renderItem := by
  intro a b h
  obtain ⟨na, ta⟩ := a
  obtain ⟨nb, tb⟩ := b
  unfold renderItem at h
  simp only at h
  obtain ⟨ca, csa, hca, hlda⟩ :
      ∃ c cs, ta.str = c :: cs ∧ asciiDigit c = false := by
    cases ta <;> exact ⟨_, _, rfl, by decide⟩
  obtain ⟨cb, csb, hcb, hldb⟩ :
      ∃ c cs, tb.str = c :: cs ∧ asciiDigit c = false := by
    cases tb <;> exact ⟨_, _, rfl, by decide⟩
  have hta := takeWhile_append_cons (natToDigits na) ca csa
    (mem_natToDigits na) hlda
  have htb := takeWhile_append_cons (natToDigits nb) cb csb
    (mem_natToDigits nb) hldb
  have hnd : natToDigits na = natToDigits nb := by
    rw [← hta, ← htb, ← hca, ← hcb, h]
  have hn : na = nb := natToDigits_injective hnd
  have hstr : ta.str = tb.str := by
    rw [hnd] at h
    exact List.append_cancel_left h
  have ht : ta = tb := by
    revert hstr
    cases ta <;> cases tb <;> simp [RoomTy.str]
  rw [hn, ht]

lemma dedupGo_sublist (seen : List Str) (l : List Item) :
    (dedupGo seen l).Sublist l := by
  induction l generalizing seen with
  | nil => simp [dedupGo]
  | cons i is ih =>
    rw [dedupGo]
    by_cases h : renderItem i ∈ seen
    · rw [if_pos h]; exact (ih seen).cons i
    · rw [if_neg h]; exact (ih _).cons₂ i

lemma mem_dedupGo {seen : List Str} {l : List Item} {x : Item} :
    x ∈ dedupGo seen l ↔ x ∈ l ∧ renderItem x ∉ seen := by
  induction l generalizing seen with
  | nil => simp [dedupGo]
  | cons i is ih =>
    rw [dedupGo]
    by_cases h : renderItem i ∈ seen
    · rw [if_pos h, ih]
      constructor
      · rintro ⟨hx, hs⟩
        exact ⟨List.mem_cons_of_mem _ hx, hs⟩
      · rintro ⟨hx, hs⟩
        rcases List.mem_cons.mp hx with rfl | hx
        · exact absurd h hs
        · exact ⟨hx, hs⟩
    · rw [if_neg h]
      constructor
      · intro hx
        rcases List.mem_cons.mp hx with rfl | hx
        · exact ⟨by simp, h⟩
        · rw [ih] at hx
          exact ⟨List.mem_cons_of_mem _ hx.1,
            fun hs => hx.2 (List.mem_cons_of_mem _ hs)⟩
      · rintro ⟨hx, hs⟩
        rcases List.mem_cons.mp hx with rfl | hx
        · simp
        · by_cases hxi : x = i
          · rw [hxi]; simp
          · apply List.mem_cons_of_mem
            rw [ih]
            refine ⟨hx, fun hs' => ?_⟩
            rcases List.mem_cons.mp hs' with heq | hs''
            · exact hxi (renderItem_injective heq)
            · exact hs hs''

lemma dedupGo_nodup (seen : List Str) (l : List Item) :
    (dedupGo seen l).Nodup := by
  induction l generalizing seen with
  | nil => simp [dedupGo]
  | cons i is ih =>
    rw [dedupGo]
    by_cases h : renderItem i ∈ seen
    · rw [if_pos h]; exact ih seen
    · rw [if_neg h]
      refine List.Nodup.cons (fun hmem => ?_) (ih _)
      rw [mem_dedupGo] at hmem
      exact hmem.2 (by simp)

lemma dedupGo_eq_self (l : List Item) (hn : l.Nodup) (seen : List Str)
    (hs : ∀ i ∈ l, renderItem i ∉ seen) : dedupGo seen l = l := by
  induction l generalizing seen with
  | nil => rfl
  | cons i is ih =>
    have hni : i ∉ is := (List.nodup_cons.mp hn).1
    have hnis : is.Nodup := (List.nodup_cons.mp hn).2
    rw [dedupGo, if_neg (hs i (by simp))]
    congr 1
    apply ih hnis
    intro j hj hmem
    rcases List.mem_cons.mp hmem with heq | hmem'
    · exact hni (renderItem_injective heq ▸ hj)
    · exact hs j (List.mem_cons_of_mem _ hj) hmem'

/-- Deduplicating after sorting (the source) equals sorting after
deduplicating (the spec's order of steps). -/
lemma dedup_sort_comm (l : List Item) :
    dedupGo [] (List.insertionSort itemLe l) =
      List.insertionSort itemLe (dedupGo [] l) := by
  have h1 : (dedupGo [] (List.insertionSort itemLe l)).Nodup := dedupGo_nodup _ _
  have h2 : (List.insertionSort itemLe (dedupGo [] l)).Nodup :=
    ((List.perm_insertionSort itemLe _).nodup_iff).mpr (dedupGo_nodup _ _)
  have hmem : ∀ x, x ∈ dedupGo [] (List.insertionSort itemLe l) ↔
      x ∈ List.insertionSort itemLe (dedupGo [] l) := by
    intro x
    rw [mem_dedupGo, List.mem_insertionSort, List.mem_insertionSort, mem_dedupGo]
  apply List.eq_of_perm_of_sorted (r := itemLe)
  · exact List.Subperm.antisymm
      (h1.subperm fun x hx => (hmem x).mp hx)
      (h2.subperm fun x hx => (hmem x).mpr hx)
  · exact List.Pairwise.sublist (dedupGo_sublist [] _)
      (List.sorted_insertionSort itemLe l)
  · exact List.sorted_insertionSort itemLe _

/-! ### The layout claims: C4, C5, C10 -/

lemma normalize_layout_of_ne (raw : Str) (h : extractItems raw ≠ []) :
    normalize_layout raw =
      joinDots ((dedupGo [] (List.insertionSort itemLe (extractItems raw))).map
        renderItem) := by
  show (if (extractItems raw).isEmpty && strContains wanroom (spaceFold raw)
      then wanroom
      else joinDots ((dedupGo []
        (List.insertionSort itemLe (extractItems raw))).map renderItem)) = _
  rw [isEmpty_false_of_ne_nil h, Bool.false_and]
  simp only [Bool.false_eq_true, if_false]

lemma normalize_layout_of_empty (raw : Str) (h : extractItems raw = []) :
    normalize_layout raw = wanroom ∨ normalize_layout raw = [] := by
  by_cases hw : strContains wanroom (spaceFold raw) = true
  · left
    show (if (extractItems raw).isEmpty && strContains wanroom (spaceFold raw)
        then wanroom else _) = wanroom
    rw [h, hw]
    rfl
  · right
    show (if (extractItems raw).isEmpty && strContains wanroom (spaceFold raw)
        then wanroom
        else joinDots ((dedupGo []
          (List.insertionSort itemLe (extractItems raw))).map renderItem)) = []
    rw [h]
    simp only [Bool.not_eq_true] at hw
    rw [hw]
    rfl

lemma normalize_layout_render_fix (L : List Item) (hnd : L.Nodup)
    (hs : List.Sorted itemLe L) :
    normalize_layout (joinDots (L.map renderItem)) = joinDots (L.map renderItem) := by
  have hext := extractItems_joinDots L
  by_cases hL : L = []
  · rw [hL]; decide
  · rw [normalize_layout_of_ne _ (by rw [hext]; exact hL), hext,
      List.Sorted.insertionSort_eq hs, dedupGo_eq_self L hnd [] (by simp)]

/-- **C10.** `_normalize_layout` is idempotent: applying it to its own
output changes nothing, so the re-normalization in `write_to_sheet` is
harmless. -/
theorem normalize_layout_idempotent (raw : Str) :
    normalize_layout (normalize_layout raw) = normalize_layout raw := by
  by_cases h : extractItems raw = []
  · rcases normalize_layout_of_empty raw h with h1 | h1 <;> rw [h1]
    · decide
    · decide
  · rw [normalize_layout_of_ne raw h]
    exact normalize_layout_render_fix _ (dedupGo_nodup _ _)
      (List.Pairwise.sublist (dedupGo_sublist _ _)
        (List.sorted_insertionSort itemLe _))

/-- **C5.** On any input with at least one extracted `(number, type)` pair,
`_normalize_layout` returns exactly the `・`-join of the pairs after
deduplication by the `(number, type)` key (first occurrence kept) and an
ascending sort by numeric count then type rank; in particular the spec's
example holds. -/
theorem normalize_layout_dedup_sort_join (raw : Str)
    (h : extractItems raw ≠ []) :
    normalize_layout raw =
      joinDots ((List.insertionSort itemLe (dedupGo [] (extractItems raw))).map
        renderItem) ∧
    normalize_layout "１ＬＤＫ・3LDK・1LDK".toList = "1LDK・3LDK".toList := by
  constructor
  · rw [normalize_layout_of_ne raw h, dedup_sort_comm]
  · decide

/-- Witness for C5 at `"3LDK・1LDK"`. -/
theorem normalize_layout_dedup_sort_join_witness :
    normalize_layout "3LDK・1LDK".toList =
      joinDots ((List.insertionSort itemLe
        (dedupGo [] (extractItems "3LDK・1LDK".toList))).map renderItem) ∧
    normalize_layout "１ＬＤＫ・3LDK・1LDK".toList = "1LDK・3LDK".toList :=
  normalize_layout_dedup_sort_join "3LDK・1LDK".toList (by decide)

/-- **C4 (amended).** The tokens of `_normalize_layout`'s output are in
ascending order by numeric count first and by type rank second: re-scanning
the output always yields an item list sorted by the `(count, rank)` key. -/
theorem layout_tokens_sorted_count_major (raw : Str) :
    List.Sorted itemLe (extractItems (normalize_layout raw)) := by
  by_cases h : extractItems raw = []
  · rcases normalize_layout_of_empty raw h with h1 | h1 <;> rw [h1]
    · rw [show extractItems wanroom = [] from by decide]
      exact List.sorted_nil
    · rw [show extractItems [] = [] from by decide]
      exact List.sorted_nil
  · rw [normalize_layout_of_ne raw h, extractItems_joinDots]
    exact List.Pairwise.sublist (dedupGo_sublist _ _)
      (List.sorted_insertionSort itemLe _)

/-- **C4 (counterexample).** On `"2K 1LDK"` the output is `"1LDK・2K"`,
whose tokens are not ordered rank-major (LDK has rank 3, K has rank 1), so
the committed order is not "type rank first, count second". -/
theorem layout_not_rank_major :
    normalize_layout "2K 1LDK".toList = "1LDK・2K".toList ∧
    ¬ List.Sorted itemRankLe (extractItems (normalize_layout "2K 1LDK".toList)) := by
  constructor
  · decide
  · rw [show extractItems (normalize_layout "2K 1LDK".toList) =
        [(1, RoomTy.LDK), (2, RoomTy.K)] from by decide]
    intro hs
    have h1 := (List.pairwise_cons.mp hs).1 (2, RoomTy.K) (by simp)
    exact absurd h1 (by decide)

/-! ### The area claims: C1, C6, C7 -/

/-- A matched number group consists of digits and at most one dot, and the
remainder is a sublist of the subject. -/
lemma matchNum_some {l a r : Str} (h : matchNum l = some (a, r)) :
    (∀ c ∈ a, asciiDigit c = true ∨ c = '.') ∧ r.Sublist l := by
  unfold matchNum at h
  by_cases hds : (l.takeWhile asciiDigit).isEmpty
  · rw [if_pos hds] at h; cases h
  · rw [if_neg hds] at h
    split at h
    next r2 heq =>
      by_cases hfs : (r2.takeWhile asciiDigit).isEmpty
      · rw [if_pos hfs] at h
        simp only [Option.some.injEq, Prod.mk.injEq] at h
        refine ⟨fun c hc => Or.inl ?_, ?_⟩
        · rw [← h.1] at hc; exact List.mem_takeWhile_imp hc
        · rw [← h.2, ← heq]; exact List.dropWhile_sublist _
      · rw [if_neg hfs] at h
        simp only [Option.some.injEq, Prod.mk.injEq] at h
        refine ⟨fun c hc => ?_, ?_⟩
        · rw [← h.1] at hc
          rcases List.mem_append.mp hc with hc | hc
          · exact Or.inl (List.mem_takeWhile_imp hc)
          · rcases List.mem_cons.mp hc with rfl | hc
            · exact Or.inr rfl
            · exact Or.inl (List.mem_takeWhile_imp hc)
        · rw [← h.2]
          refine List.Sublist.trans ?_ (heq ▸ List.dropWhile_sublist asciiDigit)
          exact (List.dropWhile_sublist _).trans ((List.Sublist.refl r2).cons '.')
    next rr hne =>
      simp only [Option.some.injEq, Prod.mk.injEq] at h
      refine ⟨fun c hc => Or.inl ?_, ?_⟩
      · rw [← h.1] at hc; exact List.mem_takeWhile_imp hc
      · rw [← h.2]; exact List.dropWhile_sublist _

lemma expectM2_some {l r : Str} (h : expectM2 l = some r) : r.Sublist l := by
  unfold expectM2 at h
  split at h
  next rest heq =>
    have hr : rest = r := Option.some.inj h
    subst hr
    exact (((List.Sublist.refl rest).cons '2').cons 'm').trans
      (heq ▸ List.dropWhile_sublist pySpace)
  next => cases h

lemma matchNumM2_some {l a r : Str} (h : matchNumM2 l = some (a, r)) :
    (∀ c ∈ a, asciiDigit c = true ∨ c = '.') ∧ r.Sublist l := by
  unfold matchNumM2 at h
  split at h
  next a' r1 heq1 =>
    split at h
    next r2 heq2 =>
      simp only [Option.some.injEq, Prod.mk.injEq] at h
      obtain ⟨ha, hr⟩ := h
      subst ha; subst hr
      exact ⟨(matchNum_some heq1).1,
        (expectM2_some heq2).trans (matchNum_some heq1).2⟩
    next => cases h
  next => cases h

lemma matchRange_some {l a b : Str} (h : matchRange l = some (a, b)) :
    (∀ c ∈ a, asciiDigit c = true ∨ c = '.') ∧
    (∀ c ∈ b, asciiDigit c = true ∨ c = '.') ∧ '～' ∈ l := by
  unfold matchRange at h
  split at h
  next a' r2 heq1 =>
    split at h
    next r3 heq2 =>
      split at h
      next b' rest heq3 =>
        simp only [Option.some.injEq, Prod.mk.injEq] at h
        obtain ⟨ha, hb⟩ := h
        subst ha; subst hb
        refine ⟨(matchNumM2_some heq1).1, (matchNumM2_some heq3).1, ?_⟩
        have h1 : '～' ∈ r2.dropWhile pySpace := by rw [heq2]; simp
        exact ((matchNumM2_some heq1).2.subset)
          ((List.dropWhile_sublist pySpace).subset h1)
      next => cases h
    next => cases h
  next => cases h

lemma searchRange_some : ∀ {l a b : Str}, searchRange l = some (a, b) →
    (∀ c ∈ a, asciiDigit c = true ∨ c = '.') ∧
    (∀ c ∈ b, asciiDigit c = true ∨ c = '.') ∧ '～' ∈ l := by
  intro l
  induction l with
  | nil => intro a b h; cases h
  | cons c cs ih =>
    intro a b h
    rw [searchRange] at h
    cases heq : matchRange (c :: cs) with
    | some ab =>
      rw [heq] at h
      obtain ⟨x, y⟩ := ab
      cases h
      exact matchRange_some heq
    | none =>
      rw [heq] at h
      obtain ⟨h1, h2, h3⟩ := ih h
      exact ⟨h1, h2, List.mem_cons_of_mem _ h3⟩

lemma mem_findNumsGo : ∀ (k : Nat) (l : Str), ∀ a ∈ findNumsGo k l,
    ∀ c ∈ a, asciiDigit c = true ∨ c = '.' := by
  intro k l
  induction l generalizing k with
  | nil => intro a ha; cases k <;> cases ha
  | cons d cs ih =>
    intro a ha
    cases k with
    | succ k => exact ih k a ha
    | zero =>
      rw [findNumsGo] at ha
      split at ha
      next a' rest heq =>
        rcases List.mem_cons.mp ha with rfl | ha
        · exact (matchNumM2_some heq).1
        · exact ih _ a ha
      next => exact ih 0 a ha

lemma mem_stripZerosRight {l : Str} {c : Char} (h : c ∈ stripZerosRight l) :
    c ∈ l := by
  unfold stripZerosRight at h
  rw [List.mem_reverse] at h
  have h2 := (List.dropWhile_sublist _).subset h
  rwa [List.mem_reverse] at h2

lemma mem_gSig {x : Dec} {c : Char} (h : c ∈ gSig x) : asciiDigit c = true :=
  mem_natToDigits _ _ (mem_stripZerosRight h)

lemma mem_expDigits {e : Int} {c : Char} (h : c ∈ expDigits e) :
    asciiDigit c = true ∨ c = '+' ∨ c = '-' := by
  simp only [expDigits] at h
  rcases List.mem_cons.mp h with rfl | h
  · by_cases he : e < 0
    · rw [if_pos he]; right; right; rfl
    · rw [if_neg he]; right; left; rfl
  · by_cases hlen : (natToDigits e.natAbs).length < 2
    · rw [if_pos hlen] at h
      rcases List.mem_cons.mp h with rfl | h
      · left; decide
      · left; exact mem_natToDigits _ _ h
    · rw [if_neg hlen] at h
      left
      exact mem_natToDigits _ _ h

lemma mem_gFormat {x : Dec} {c : Char} (h : c ∈ gFormat x) :
    asciiDigit c = true ∨ c = '.' ∨ c = 'e' ∨ c = '+' ∨ c = '-' := by
  unfold gFormat at h
  split at h
  · rcases List.mem_singleton.mp h with rfl
    left; decide
  · split at h
    · -- scientific
      split at h
      next c0 rest heq =>
        rcases List.mem_cons.mp h with rfl | h
        · left; exact mem_gSig (heq ▸ List.mem_cons_self c rest)
        · rcases List.mem_append.mp h with h | h
          · by_cases hre : rest.isEmpty
            · rw [if_pos hre] at h; cases h
            · rw [if_neg hre] at h
              rcases List.mem_cons.mp h with rfl | h
              · right; left; rfl
              · left
                exact mem_gSig (heq ▸ List.mem_cons_of_mem c0 h)
          · rcases List.mem_cons.mp h with rfl | h
            · right; right; left; rfl
            · rcases mem_expDigits h with h | h | h
              · exact Or.inl h
              · exact Or.inr (Or.inr (Or.inr (Or.inl h)))
              · exact Or.inr (Or.inr (Or.inr (Or.inr h)))
      next heq => cases h
    · split at h
      · -- fixed, integer shaped
        split at h
        · rcases List.mem_append.mp h with h | h
          · left; exact mem_gSig h
          · left
            rw [List.eq_of_mem_replicate h]
            decide
        · -- fixed with a dot
          rcases List.mem_append.mp h with h | h
          · left; exact mem_gSig ((List.take_subset _ _) h)
          · rcases List.mem_cons.mp h with rfl | h
            · right; left; rfl
            · left; exact mem_gSig ((List.drop_subset _ _) h)
      · -- leading 0.
        rcases List.mem_cons.mp h with rfl | h
        · left; decide
        · rcases List.mem_cons.mp h with rfl | h
          · right; left; rfl
          · rcases List.mem_append.mp h with h | h
            · left
              rw [List.eq_of_mem_replicate h]
              decide
            · left; exact mem_gSig h

/-- The characters that can occur in `renderMinMax`'s output. -/
lemma mem_renderMinMax {nums : List Str} {c : Char} (h : c ∈ renderMinMax nums) :
    asciiDigit c = true ∨ c = '.' ∨ c = 'e' ∨ c = '+' ∨ c = '-' ∨
      c = 'm' ∨ c = '2' ∨ c = '～' := by
  simp only [renderMinMax] at h
  rcases List.mem_append.mp h with h | h
  · rcases mem_gFormat h with h | h | h | h | h
    · exact Or.inl h
    all_goals simp [h]
  · rcases List.mem_cons.mp h with rfl | h
    · simp
    rcases List.mem_cons.mp h with rfl | h
    · simp
    rcases List.mem_cons.mp h with rfl | h
    · simp
    rcases List.mem_append.mp h with h | h
    · rcases mem_gFormat h with h | h | h | h | h
      · exact Or.inl h
      all_goals simp [h]
    · rcases List.mem_cons.mp h with rfl | h
      · simp
      rcases List.mem_cons.mp h with rfl | h
      · simp
      cases h

/-- `renderMinMax` ends in the unit `m2`. -/
lemma renderMinMax_m2 (nums : List Str) :
    ∃ pre, renderMinMax nums = pre ++ ['m', '2'] := by
  simp only [renderMinMax]
  refine ⟨gFormat ((List.insertionSort decLe (nums.map parseDec)).headD (0, 1)) ++
    'm' :: '2' :: '～' ::
      gFormat ((List.insertionSort decLe (nums.map parseDec)).getLastD (0, 1)), ?_⟩
  simp

lemma headD_mem_of_length_one {l : List Str} (h : l.length = 1) :
    l.headD [] ∈ l := by
  cases l with
  | nil => simp at h
  | cons x xs => simp

/-- **C1 (amended).** The unit in `_normalize_area`'s output is the ASCII
`m2`: the output never contains the symbol `㎡`, and every non-empty output
ends in `m2`.  (The claim's `㎡` unit never appears; the spec's example
input `"70.0m²"` is settled in the counterexample.) -/
theorem normalize_area_m2_unit (raw : Str) :
    '㎡' ∉ normalize_area raw ∧
    (normalize_area raw ≠ [] → ∃ pre, normalize_area raw = pre ++ ['m', '2']) := by
  unfold normalize_area
  split
  next a b heq =>
    obtain ⟨ha, hb, -⟩ := searchRange_some heq
    constructor
    · intro hmem
      rcases List.mem_append.mp hmem with hc | hc
      · rcases ha _ hc with h | h
        · exact absurd h (by decide)
        · exact absurd h (by decide)
      · rcases List.mem_cons.mp hc with h | hc
        · exact absurd h (by decide)
        rcases List.mem_cons.mp hc with h | hc
        · exact absurd h (by decide)
        rcases List.mem_cons.mp hc with h | hc
        · exact absurd h (by decide)
        rcases List.mem_append.mp hc with hc | hc
        · rcases hb _ hc with h | h
          · exact absurd h (by decide)
          · exact absurd h (by decide)
        · rcases List.mem_cons.mp hc with h | hc
          · exact absurd h (by decide)
          rcases List.mem_cons.mp hc with h | hc
          · exact absurd h (by decide)
          cases hc
    · intro _
      exact ⟨a ++ 'm' :: '2' :: '～' :: b, by simp⟩
  next =>
    split
    · -- min–max over the folded text
      refine ⟨fun hmem => ?_, fun _ => renderMinMax_m2 _⟩
      rcases mem_renderMinMax hmem with h | h | h | h | h | h | h | h <;>
        exact absurd h (by decide)
    · split
      next h2 h1 =>
        -- exactly one number in the folded text
        constructor
        · intro hmem
          rcases List.mem_append.mp hmem with hc | hc
          · rcases mem_findNumsGo 0 _ _ (headD_mem_of_length_one h1) _ hc with h | h
            · exact absurd h (by decide)
            · exact absurd h (by decide)
          · rcases List.mem_cons.mp hc with h | hc
            · exact absurd h (by decide)
            rcases List.mem_cons.mp hc with h | hc
            · exact absurd h (by decide)
            cases hc
        · intro _
          exact ⟨_, rfl⟩
      · split
        · -- min–max over the raw fallback
          refine ⟨fun hmem => ?_, fun _ => renderMinMax_m2 _⟩
          rcases mem_renderMinMax hmem with h | h | h | h | h | h | h | h <;>
            exact absurd h (by decide)
        · split
          next h4 h3 =>
            -- exactly one number in the raw fallback
            constructor
            · intro hmem
              rcases List.mem_append.mp hmem with hc | hc
              · rcases mem_findNumsGo 0 _ _ (headD_mem_of_length_one h3) _ hc with
                  h | h
                · exact absurd h (by decide)
                · exact absurd h (by decide)
              · rcases List.mem_cons.mp hc with h | hc
                · exact absurd h (by decide)
                rcases List.mem_cons.mp hc with h | hc
                · exact absurd h (by decide)
                cases hc
            · intro _
              exact ⟨_, rfl⟩
          · exact ⟨by simp, fun hne => absurd rfl hne⟩

/-- Witness for C1 at `"50㎡"`. -/
theorem normalize_area_m2_unit_witness :
    '㎡' ∉ normalize_area "50㎡".toList ∧
    ∃ pre, normalize_area "50㎡".toList = pre ++ ['m', '2'] :=
  ⟨(normalize_area_m2_unit "50㎡".toList).1,
    (normalize_area_m2_unit "50㎡".toList).2 (by decide)⟩

/-- **C1 (counterexample).** A non-empty output carries `m2`, not `㎡`
(`"70.0㎡"` yields `"70.0m2"`), and the claim's example fails: the
superscript-two variant `m²` is not folded by the code, so
`normalize_area("70.0m²")` returns the empty string, not `"70㎡"`. -/
theorem area_output_not_sqm :
    normalize_area "70.0㎡".toList = "70.0m2".toList ∧
    '㎡' ∉ normalize_area "70.0㎡".toList ∧
    normalize_area "70.0m²".toList = [] ∧
    normalize_area "70.0m²".toList ≠ "70㎡".toList :=
  ⟨by decide, by decide, by decide, by decide⟩

/-- **C6 (amended).** In the explicit-range branch the two matched endpoint
strings are emitted verbatim — no rounding to two decimals, no stripping of
trailing zeros — with the ASCII unit `m2`, joined by the full-width wave
dash. -/
theorem area_range_endpoints_verbatim (raw a b : Str)
    (h : searchRange (to_m2 raw) = some (a, b)) :
    normalize_area raw = a ++ 'm' :: '2' :: '～' :: (b ++ ['m', '2']) := by
  unfold normalize_area
  rw [h]

/-- Witness for C6 at the spec's own example input. -/
theorem area_range_endpoints_verbatim_witness :
    normalize_area "44.830㎡～74.570㎡".toList =
      "44.830".toList ++ 'm' :: '2' :: '～' :: ("74.570".toList ++ ['m', '2']) :=
  area_range_endpoints_verbatim "44.830㎡～74.570㎡".toList "44.830".toList
    "74.570".toList (by decide)

/-- **C6 (counterexample).** On the spec's example the endpoints keep their
trailing zeros and the `m2` unit: the output is `"44.830m2～74.570m2"`, not
`"44.83㎡～74.57㎡"`. -/
theorem area_range_not_truncated :
    normalize_area "44.830㎡～74.570㎡".toList = "44.830m2～74.570m2".toList ∧
    normalize_area "44.830㎡～74.570㎡".toList ≠ "44.83㎡～74.57㎡".toList :=
  ⟨by decide, by decide⟩

/-- **C7 (counterexample).** The explicit-range detection does not
recognize the ASCII tilde: on `"80㎡~60㎡"` the search fails and the
min–max fallback reorders and reformats the endpoints, while the same
input with the full-width dash keeps them verbatim in source order — the
two dash variants are not treated alike. -/
theorem area_ascii_tilde_not_range :
    searchRange (to_m2 "80㎡~60㎡".toList) = none ∧
    normalize_area "80㎡~60㎡".toList = "60m2～80m2".toList ∧
    normalize_area "80㎡～60㎡".toList = "80m2～60m2".toList ∧
    normalize_area "80㎡~60㎡".toList ≠ normalize_area "80㎡～60㎡".toList :=
  ⟨by decide, by decide, by decide, by decide⟩

/-- **C7 (amended).** The range detection fires only on the full-width wave
dash `～`: whenever the search succeeds, the subject contains `～`.  An
ASCII-tilde input instead reaches the min–max fallback, which still joins
the endpoints with `～`. -/
theorem range_detection_needs_wave_dash (l a b : Str)
    (h : searchRange l = some (a, b)) :
    '～' ∈ l ∧ normalize_area "80㎡~60㎡".toList = "60m2～80m2".toList :=
  ⟨(searchRange_some h).2.2, by decide⟩

/-- Witness for C7 amended. -/
theorem range_detection_needs_wave_dash_witness :
    '～' ∈ "80m2～60m2".toList ∧
    normalize_area "80㎡~60㎡".toList = "60m2～80m2".toList :=
  range_detection_needs_wave_dash "80m2～60m2".toList "80".toList "60".toList
    (by decide)

end Goonew
